import Mathlib

/-!
Shallow embedding of the `linked-markov` library (src/src/step.rs, src/src/lib.rs).

A `Step<T>` is a graph node holding an immutable `state : T` and a lock-protected
transition table `HashMap<Arc<Step<T>>, usize>`.  Since `Arc`d nodes are shared and
the tables are mutable, we model the heap explicitly: nodes are identified by a
`NodeId`, the immutable states are a fixed map `st : NodeId → σ`, and the mutable
transition tables are a map `tm : NodeId → TransTable` that stateful operations
thread through.  A `HashMap` iteration is modelled as a list of (target, weight)
entries in the iteration order of the map; `HashMap` key equality for `Step` is
equality of `state` (src/src/step.rs lines 54-61), so list insertion compares keys
through `st`.

Randomness: `rand::rng().random_range(0..total)` at the i-th draw of a walk is
modelled by `rolls i total`, for an arbitrary function `rolls`; a draw is faithful
to the library when `0 < total → rolls i total < total` (`ValidRolls`).
-/

namespace LinkedMarkov

/-- Identity of an `Arc<Step<T>>` allocation. -/
abbrev NodeId := Nat

/-- A snapshot of one node's transition table, in `HashMap` iteration order:
entries are (target node, weight). -/
abbrev TransTable := List (NodeId × Nat)

/-- Sum of all edge weights: `transitions.values().sum()` (src/src/step.rs line 89). -/
def totalWeight (t : TransTable) : Nat :=
  (t.map Prod.snd).sum

/-- Cumulative weight of the first `k` entries of the table. -/
def cumW (t : TransTable) (k : Nat) : Nat :=
  totalWeight (t.take k)

/-- The `find_map` loop of `Step::next` (src/src/step.rs lines 94-102): running
cumulative sum `cum`, return the first target whose cumulative weight strictly
exceeds `roll`. -/
def findNext : TransTable → Nat → Nat → Option NodeId
  | [], _, _ => none
  | (to_, w) :: rest, roll, cum =>
      if roll < cum + w then some to_ else findNext rest roll (cum + w)

/-- `Step::next` (src/src/step.rs lines 83-103): `none` when the table is empty or
the total weight is `0`; otherwise draw `roll := rng total` and run the cumulative
scan.  `rng` stands for the one `random_range(0..total)` draw this call makes. -/
def stepNext (t : TransTable) (rng : Nat → Nat) : Option NodeId :=
  if t.isEmpty then none
  else if totalWeight t = 0 then none
  else findNext t (rng (totalWeight t)) 0

/-- The roll supplied for draw `i` with bound `total` is a possible outcome of
`random_range(0..total)`. -/
def ValidRolls (rolls : Nat → Nat → Nat) : Prop :=
  ∀ i n, 0 < n → rolls i n < n

/-- `HashMap::insert` on a table whose key equality is state equality
(src/src/step.rs lines 54-61, 78-80): if some entry's key has the same state, its
value is replaced (the stored key object is kept, as `HashMap::insert` keeps the
old key); otherwise the new entry is added. -/
def hmInsert {σ : Type} [DecidableEq σ] (st : NodeId → σ) :
    TransTable → NodeId → Nat → TransTable
  | [], k, w => [(k, w)]
  | (k0, w0) :: rest, k, w =>
      if st k0 = st k then (k0, w) :: rest
      else (k0, w0) :: hmInsert st rest k w

/-- `Step::insert_transition` (src/src/step.rs lines 78-80) applied to node `n`:
write-lock `n`'s table and `insert` into it. -/
def insertTransition {σ : Type} [DecidableEq σ] (st : NodeId → σ)
    (tm : NodeId → TransTable) (n : NodeId) (to_ : NodeId) (w : Nat) :
    NodeId → TransTable :=
  Function.update tm n (hmInsert st (tm n) to_ w)

/-- Number of entries of the table whose key (compared by state) is `s`. -/
def keyCount {σ : Type} [DecidableEq σ] (st : NodeId → σ) (t : TransTable) (s : σ) : Nat :=
  (t.filter fun e => decide (st e.1 = s)).length

/-- The table's keys, viewed through state equality, are pairwise distinct — the
`HashMap` representation invariant. -/
def NodupKeys {σ : Type} (st : NodeId → σ) (t : TransTable) : Prop :=
  (t.map fun e => st e.1).Nodup

/-- The loop of `walk` (src/src/step.rs lines 113-120), recording the states
appended after the start entry: at most `fuel` further transitions, the i-th draw
using `rolls i`; stop at the first `none` from `Step::next`. -/
def walkFrom {σ : Type} (st : NodeId → σ) (tm : NodeId → TransTable)
    (rolls : Nat → Nat → Nat) (current : NodeId) : Nat → Nat → List σ
  | 0, _ => []
  | fuel + 1, i =>
      match stepNext (tm current) (rolls i) with
      | none => []
      | some nxt => st nxt :: walkFrom st tm rolls nxt fuel (i + 1)

/-- `walk` (src/src/step.rs lines 107-122): the start state followed by the loop's
output; `for _ in 1..steps` runs `steps - 1` times. -/
def walk {σ : Type} (st : NodeId → σ) (tm : NodeId → TransTable)
    (rolls : Nat → Nat → Nat) (start : NodeId) (steps : Nat) : List σ :=
  st start :: walkFrom st tm rolls start (steps - 1) 0

/-- Ghost companion of `walkFrom`: the node ids visited after the start node. -/
def walkNodes (tm : NodeId → TransTable) (rolls : Nat → Nat → Nat)
    (current : NodeId) : Nat → Nat → List NodeId
  | 0, _ => []
  | fuel + 1, i =>
      match stepNext (tm current) (rolls i) with
      | none => []
      | some nxt => nxt :: walkNodes tm rolls nxt fuel (i + 1)

/-- The full node trajectory of `walk`: the start node then every node stepped to. -/
def walkTraj (tm : NodeId → TransTable) (rolls : Nat → Nat → Nat)
    (start : NodeId) (steps : Nat) : List NodeId :=
  start :: walkNodes tm rolls start (steps - 1) 0

/-- A dead end (src/src/step.rs lines 86-92): `Step::next` returns `none` exactly
when the table is empty or its total weight is `0`. -/
def IsDeadEnd (t : TransTable) : Prop :=
  t = [] ∨ totalWeight t = 0

/-- Effect-typed translation of one `Step::next` call as `walk` sees it: the table
sits behind an `RwLock`, so the call has the type of a state transformer on the
table; the body only takes the read lock, so it returns the table unchanged. -/
def nextH (t : TransTable) (rng : Nat → Nat) : Option NodeId × TransTable :=
  (stepNext t rng, t)

/-- The loop of `walk` with the heap of transition tables threaded through each
`Step::next` call (writing back the table `nextH` returns), used to state that
`walk` mutates nothing.  The `state` fields are not threaded at all: `state` is an
immutable field reachable only through shared references, so no operation can
write it. -/
def walkFromH {σ : Type} (st : NodeId → σ) (tm : NodeId → TransTable)
    (rolls : Nat → Nat → Nat) (current : NodeId) :
    Nat → Nat → List σ × (NodeId → TransTable)
  | 0, _ => ([], tm)
  | fuel + 1, i =>
      match nextH (tm current) (rolls i) with
      | (none, t2) => ([], Function.update tm current t2)
      | (some nxt, t2) =>
          let r := walkFromH st (Function.update tm current t2) rolls nxt fuel (i + 1)
          (st nxt :: r.1, r.2)

/-- `walk` with the heap threaded: the visited states and the final heap. -/
def walkH {σ : Type} (st : NodeId → σ) (tm : NodeId → TransTable)
    (rolls : Nat → Nat → Nat) (start : NodeId) (steps : Nat) :
    List σ × (NodeId → TransTable) :=
  let r := walkFromH st tm rolls start (steps - 1) 0
  (st start :: r.1, r.2)

/-- Instrumented output of `mut_walk`: `res` is the `Result<Vec<T>, E>` the
function returns; `tm` is the heap of transition tables after the call (the Rust
callback mutates it in place through the shared nodes); `calls` is the ghost trace
of callback invocations, each recording the (current, next) pair passed to the
callback and `none` when that invocation succeeded or `some e` when it failed. -/
structure MutOut (σ ε : Type) where
  res : Except ε (List σ)
  tm : NodeId → TransTable
  calls : List ((NodeId × NodeId) × Option ε)

/-- The loop of `mut_walk` (src/src/step.rs lines 157-165).  A callback
`cb heap current next` models `apply(current.clone(), next.clone())`: it may
rewrite any transition table (the nodes are shared) and may fail.  After a
successful callback the source pushes `current.state` — not `next.state` — onto
the path (line 160), and this translation keeps that behaviour. -/
def mutWalkFrom {σ ε : Type} (st : NodeId → σ)
    (cb : (NodeId → TransTable) → NodeId → NodeId → Except ε (NodeId → TransTable))
    (rolls : Nat → Nat → Nat) :
    (NodeId → TransTable) → NodeId → Nat → Nat → MutOut σ ε
  | tm, _, 0, _ => ⟨.ok [], tm, []⟩
  | tm, current, fuel + 1, i =>
      match stepNext (tm current) (rolls i) with
      | none => ⟨.ok [], tm, []⟩
      | some nxt =>
          match cb tm current nxt with
          | .error e => ⟨.error e, tm, [((current, nxt), some e)]⟩
          | .ok tm2 =>
              let r := mutWalkFrom st cb rolls tm2 nxt fuel (i + 1)
              ⟨r.res.map (fun l => st current :: l), r.tm, ((current, nxt), none) :: r.calls⟩

/-- `mut_walk` (src/src/step.rs lines 150-167): the path starts with the start
state, the loop runs `steps - 1` times, and a callback failure propagates as the
whole result with no path value. -/
def mutWalk {σ ε : Type} (st : NodeId → σ)
    (cb : (NodeId → TransTable) → NodeId → NodeId → Except ε (NodeId → TransTable))
    (rolls : Nat → Nat → Nat) (tm : NodeId → TransTable)
    (start : NodeId) (steps : Nat) : MutOut σ ε :=
  let r := mutWalkFrom st cb rolls tm start (steps - 1) 0
  ⟨r.res.map (fun l => st start :: l), r.tm, r.calls⟩

/-! Concrete instances used to evaluate the definitions. -/

/-- States are node ids themselves. -/
def stId : NodeId → Nat := fun n => n

/-- Every draw returns `0`; valid, since `0 < total` gives `0 < total`. -/
def rollsZero : Nat → Nat → Nat := fun _ _ => 0

/-- Two-node chain: node 0 has a single weight-1 edge to node 1; node 1 is a dead
end. -/
def tmLine2 : NodeId → TransTable := fun n =>
  if n = 0 then [(1, 1)] else []

/-- Four-node line 0 → 1 → 2 → 3, each edge weight 1; node 3 is a dead end. -/
def tmLine4 : NodeId → TransTable := fun n =>
  if n = 0 then [(1, 1)] else if n = 1 then [(2, 1)] else if n = 2 then [(3, 1)] else []

/-- A callback that always succeeds and changes nothing. -/
def cbOk : (NodeId → TransTable) → NodeId → NodeId → Except Unit (NodeId → TransTable) :=
  fun tm _ _ => .ok tm

/-- A callback that fails (with `()`) exactly when invoked at current node 1, and
otherwise succeeds without touching the heap. -/
def cbFailAt1 : (NodeId → TransTable) → NodeId → NodeId → Except Unit (NodeId → TransTable) :=
  fun tm c _ => if c = 1 then .error () else .ok tm

/-- A value-level snapshot of a `Step<T>` (src/src/step.rs lines 14-20): the state
and the node's transition table, as the `PartialEq`/`Hash` impls see them. -/
structure StepV (σ : Type) where
  state : σ
  transitions : TransTable

/-- `PartialEq for Step` (src/src/step.rs lines 54-61): compare only `state`. -/
def stepBEq {σ : Type} [DecidableEq σ] (a b : StepV σ) : Bool :=
  decide (a.state = b.state)

/-- `Hash for Step` (src/src/step.rs lines 45-52): feed only `state` to the
hasher.  `hs` is the state type's own `Hash` impl as a hasher-state transformer,
`h0` the hasher's incoming state. -/
def stepHash {σ H : Type} (hs : σ → H → H) (a : StepV σ) (h0 : H) : H :=
  hs a.state h0

/-! Helper lemmas about the cumulative-weight scan. -/

theorem totalWeight_cons (n w : Nat) (t : TransTable) :
    totalWeight ((n, w) :: t) = w + totalWeight t := by
  simp [totalWeight]

theorem totalWeight_append (a b : TransTable) :
    totalWeight (a ++ b) = totalWeight a + totalWeight b := by
  simp [totalWeight]

theorem totalWeight_take_le (t : TransTable) (k : Nat) :
    totalWeight (t.take k) ≤ totalWeight t := by
  conv_rhs => rw [← List.take_append_drop k t]
  rw [totalWeight_append]
  omega

theorem findNext_eq_none (t : TransTable) : ∀ roll cum, cum ≤ roll →
    (findNext t roll cum = none ↔ cum + totalWeight t ≤ roll) := by
  induction t with
  | nil =>
      intro roll cum h
      simpa [findNext, totalWeight] using h
  | cons e rest ih =>
      intro roll cum h
      obtain ⟨n, w⟩ := e
      rw [findNext, totalWeight_cons]
      by_cases hlt : roll < cum + w
      · rw [if_pos hlt]
        exact iff_of_false (by simp) (by omega)
      · rw [if_neg hlt, ih roll (cum + w) (by omega)]
        omega

theorem findNext_eq_some (t : TransTable) : ∀ roll cum x, cum ≤ roll →
    (findNext t roll cum = some x ↔
      ∃ pre w rest, t = pre ++ (x, w) :: rest ∧
        cum + totalWeight pre ≤ roll ∧ roll < cum + totalWeight pre + w) := by
  induction t with
  | nil =>
      intro roll cum x h
      rw [findNext]
      refine iff_of_false (by simp) ?_
      rintro ⟨pre, w, rest, habs, -, -⟩
      exact absurd habs.symm (by simp)
  | cons e rest ih =>
      intro roll cum x h
      obtain ⟨n, w0⟩ := e
      rw [findNext]
      by_cases hlt : roll < cum + w0
      · rw [if_pos hlt]
        constructor
        · intro hx
          obtain rfl : n = x := Option.some.inj hx
          exact ⟨[], w0, rest, rfl, by simpa [totalWeight] using h,
            by simpa [totalWeight] using hlt⟩
        · rintro ⟨pre, w, rest2, heq, hA, hB⟩
          cases pre with
          | nil =>
              obtain ⟨h1, -⟩ := List.cons.inj heq
              obtain ⟨rfl, -⟩ := Prod.mk.inj h1
              rfl
          | cons p ps =>
              rw [List.cons_append] at heq
              obtain ⟨h1, -⟩ := List.cons.inj heq
              subst h1
              rw [totalWeight_cons] at hA
              omega
      · rw [if_neg hlt, ih roll (cum + w0) x (by omega)]
        constructor
        · rintro ⟨pre, w, rest2, heq, hA, hB⟩
          exact ⟨(n, w0) :: pre, w, rest2, by rw [List.cons_append, heq],
            by rw [totalWeight_cons]; omega, by rw [totalWeight_cons]; omega⟩
        · rintro ⟨pre, w, rest2, heq, hA, hB⟩
          cases pre with
          | nil =>
              obtain ⟨h1, -⟩ := List.cons.inj heq
              obtain ⟨-, rfl⟩ := Prod.mk.inj h1
              simp [totalWeight] at hA hB
              omega
          | cons p ps =>
              rw [List.cons_append] at heq
              obtain ⟨h1, h2⟩ := List.cons.inj heq
              subst h1
              rw [totalWeight_cons] at hA hB
              exact ⟨ps, w, rest2, h2, by omega, by omega⟩

theorem stepNext_eq_none (t : TransTable) (rng : Nat → Nat)
    (hv : 0 < totalWeight t → rng (totalWeight t) < totalWeight t) :
    (stepNext t rng = none ↔ IsDeadEnd t) := by
  rw [stepNext, IsDeadEnd]
  by_cases he : t.isEmpty
  · simp [he, List.isEmpty_iff.mp he]
  · rw [if_neg he]
    by_cases ht : totalWeight t = 0
    · simp [ht]
    · rw [if_neg ht]
      refine iff_of_false ?_ ?_
      · have hroll : rng (totalWeight t) < totalWeight t := hv (Nat.pos_of_ne_zero ht)
        rw [findNext_eq_none t _ 0 (Nat.zero_le _)]
        omega
      · rintro (rfl | h)
        · exact he (by simp)
        · exact ht h

theorem stepNext_eq_some (t : TransTable) (rng : Nat → Nat) (x : NodeId) :
    (stepNext t rng = some x ↔
      ∃ pre w rest, t = pre ++ (x, w) :: rest ∧
        totalWeight pre ≤ rng (totalWeight t) ∧
        rng (totalWeight t) < totalWeight pre + w) := by
  rw [stepNext]
  by_cases he : t.isEmpty
  · rw [if_pos he]
    refine iff_of_false (by simp) ?_
    rintro ⟨pre, w, rest, habs, -, -⟩
    rw [List.isEmpty_iff.mp he] at habs
    exact absurd habs.symm (by simp)
  · rw [if_neg he]
    by_cases ht : totalWeight t = 0
    · rw [if_pos ht]
      refine iff_of_false (by simp) ?_
      rintro ⟨pre, w, rest, heq, hA, hB⟩
      rw [heq, totalWeight_append, totalWeight_cons] at ht
      omega
    · rw [if_neg ht]
      rw [findNext_eq_some t _ 0 x (Nat.zero_le _)]
      simp

/-! Helper lemmas about the traversal loops. -/

theorem walkFrom_eq_map {σ : Type} (st : NodeId → σ) (tm : NodeId → TransTable)
    (rolls : Nat → Nat → Nat) : ∀ fuel c i,
    walkFrom st tm rolls c fuel i = (walkNodes tm rolls c fuel i).map st := by
  intro fuel
  induction fuel with
  | zero => intro c i; rfl
  | succ n ih =>
      intro c i
      cases hs : stepNext (tm c) (rolls i) with
      | none => simp [walkFrom, walkNodes, hs]
      | some nxt => simp [walkFrom, walkNodes, hs, ih]

theorem walkNodes_length (tm : NodeId → TransTable) (rolls : Nat → Nat → Nat)
    (hv : ValidRolls rolls) : ∀ fuel c i,
    (walkNodes tm rolls c fuel i).length = fuel ∨
      ((walkNodes tm rolls c fuel i).length < fuel ∧
        IsDeadEnd (tm ((walkNodes tm rolls c fuel i).getLastD c))) := by
  intro fuel
  induction fuel with
  | zero => intro c i; exact Or.inl rfl
  | succ n ih =>
      intro c i
      rw [walkNodes]
      cases hs : stepNext (tm c) (rolls i) with
      | none =>
          refine Or.inr ⟨Nat.succ_pos n, ?_⟩
          exact (stepNext_eq_none (tm c) (rolls i) (fun h0 => hv i _ h0)).mp hs
      | some nxt =>
          rcases ih nxt (i + 1) with hlen | ⟨hlt, hde⟩
          · exact Or.inl (by rw [List.length_cons, hlen])
          · refine Or.inr ⟨by rw [List.length_cons]; omega, ?_⟩
            rwa [List.getLastD_cons]

theorem walkFromH_pure {σ : Type} (st : NodeId → σ) (rolls : Nat → Nat → Nat) :
    ∀ fuel (tm : NodeId → TransTable) c i,
    walkFromH st tm rolls c fuel i = (walkFrom st tm rolls c fuel i, tm) := by
  intro fuel
  induction fuel with
  | zero => intro tm c i; rfl
  | succ n ih =>
      intro tm c i
      rw [walkFromH, walkFrom]
      show (match (stepNext (tm c) (rolls i), tm c) with
        | (none, t2) => ([], Function.update tm c t2)
        | (some nxt, t2) =>
            let r := walkFromH st (Function.update tm c t2) rolls nxt n (i + 1)
            (st nxt :: r.1, r.2)) = _
      cases hs : stepNext (tm c) (rolls i) with
      | none => simp [Function.update_eq_self]
      | some nxt => simp [Function.update_eq_self, ih]

/-! Helper lemmas about `Except.map` and the instrumented `mut_walk` loop. -/

theorem exceptMap_eq_error {α β ε : Type} (f : α → β) (x : Except ε α) (e : ε) :
    x.map f = .error e ↔ x = .error e := by
  cases x <;> simp [Except.map]

theorem exceptMap_eq_ok {α β ε : Type} (f : α → β) (x : Except ε α) (b : β) :
    x.map f = .ok b ↔ ∃ a, x = .ok a ∧ f a = b := by
  cases x <;> simp [Except.map]

theorem mutWalkFrom_error {σ ε : Type} (st : NodeId → σ)
    (cb : (NodeId → TransTable) → NodeId → NodeId → Except ε (NodeId → TransTable))
    (rolls : Nat → Nat → Nat) : ∀ fuel tm c i (e : ε),
    (mutWalkFrom st cb rolls tm c fuel i).res = .error e →
    ∃ pre q, (mutWalkFrom st cb rolls tm c fuel i).calls = pre ++ [(q, some e)] ∧
      ∀ x ∈ pre, x.2 = none := by
  intro fuel
  induction fuel with
  | zero => intro tm c i e h; exact absurd h (by simp [mutWalkFrom])
  | succ n ih =>
      intro tm c i e h
      cases hs : stepNext (tm c) (rolls i) with
      | none => exact absurd h (by simp [mutWalkFrom, hs])
      | some nxt =>
          cases hcb : cb tm c nxt with
          | error e0 =>
              simp only [mutWalkFrom, hs, hcb] at h ⊢
              obtain rfl : e0 = e := by simpa using h
              exact ⟨[], (c, nxt), rfl, by simp⟩
          | ok tm2 =>
              simp only [mutWalkFrom, hs, hcb] at h ⊢
              have hr : (mutWalkFrom st cb rolls tm2 nxt n (i + 1)).res = .error e := by
                simpa [exceptMap_eq_error] using h
              obtain ⟨pre, q, hc, hp⟩ := ih tm2 nxt (i + 1) e hr
              refine ⟨((c, nxt), none) :: pre, q, ?_, ?_⟩
              · simp [hc]
              · intro x hx
                rcases List.mem_cons.mp hx with rfl | hx2
                · rfl
                · exact hp x hx2

theorem mutWalkFrom_ok_length {σ ε : Type} (st : NodeId → σ)
    (cb : (NodeId → TransTable) → NodeId → NodeId → Except ε (NodeId → TransTable))
    (rolls : Nat → Nat → Nat) : ∀ fuel tm c i (l : List σ),
    (mutWalkFrom st cb rolls tm c fuel i).res = .ok l →
    l.length ≤ fuel ∧ l.length = (mutWalkFrom st cb rolls tm c fuel i).calls.length := by
  intro fuel
  induction fuel with
  | zero =>
      intro tm c i l h
      obtain rfl : ([] : List σ) = l := by simpa [mutWalkFrom] using h
      simp [mutWalkFrom]
  | succ n ih =>
      intro tm c i l h
      cases hs : stepNext (tm c) (rolls i) with
      | none =>
          simp only [mutWalkFrom, hs] at h ⊢
          obtain rfl : ([] : List σ) = l := by simpa using h
          simp
      | some nxt =>
          cases hcb : cb tm c nxt with
          | error e0 => exact absurd h (by simp [mutWalkFrom, hs, hcb])
          | ok tm2 =>
              simp only [mutWalkFrom, hs, hcb] at h ⊢
              obtain ⟨l2, hl2, rfl⟩ := (exceptMap_eq_ok _ _ _).mp h
              obtain ⟨h1, h2⟩ := ih tm2 nxt (i + 1) l2 hl2
              constructor
              · simp only [List.length_cons]; omega
              · simp only [List.length_cons, h2]

/-! Helper lemmas about `HashMap` insertion keyed by state. -/

theorem keyCount_eq_zero {σ : Type} [DecidableEq σ] (st : NodeId → σ) (t : TransTable)
    (s : σ) (h : s ∉ t.map fun e => st e.1) : keyCount st t s = 0 := by
  rw [keyCount, List.length_eq_zero, List.filter_eq_nil_iff]
  intro a ha
  simp only [decide_eq_true_eq]
  intro hcon
  exact h (List.mem_map.mpr ⟨a, ha, hcon⟩)

theorem mem_keys_hmInsert {σ : Type} [DecidableEq σ] (st : NodeId → σ) :
    ∀ (t : TransTable) (k : NodeId) (w : Nat) (s : σ),
    s ∈ (hmInsert st t k w).map (fun e => st e.1) →
    s ∈ t.map (fun e => st e.1) ∨ s = st k := by
  intro t
  induction t with
  | nil =>
      intro k w s h
      simp [hmInsert] at h
      exact Or.inr h
  | cons e rest ih =>
      intro k w s h
      obtain ⟨k0, w0⟩ := e
      rw [hmInsert] at h
      by_cases hk : st k0 = st k
      · rw [if_pos hk] at h
        have h2 : s = st k0 ∨ ∃ a, (∃ x, (a, x) ∈ rest) ∧ st a = s := by simpa using h
        refine Or.inl ?_
        simpa using h2
      · rw [if_neg hk] at h
        rcases List.mem_cons.mp h with h1 | h2
        · exact Or.inl (by simp [h1])
        · rcases ih k w s h2 with h3 | h3
          · exact Or.inl (List.mem_cons_of_mem _ h3)
          · exact Or.inr h3

theorem nodupKeys_hmInsert {σ : Type} [DecidableEq σ] (st : NodeId → σ) :
    ∀ (t : TransTable) (k : NodeId) (w : Nat), NodupKeys st t →
    NodupKeys st (hmInsert st t k w) := by
  intro t
  induction t with
  | nil => intro k w _; simp [NodupKeys, hmInsert]
  | cons e rest ih =>
      intro k w hnd
      obtain ⟨k0, w0⟩ := e
      rw [NodupKeys, List.map_cons, List.nodup_cons] at hnd
      rw [hmInsert]
      by_cases hk : st k0 = st k
      · rw [if_pos hk, NodupKeys, List.map_cons, List.nodup_cons]
        exact hnd
      · rw [if_neg hk, NodupKeys, List.map_cons, List.nodup_cons]
        refine ⟨?_, ih k w hnd.2⟩
        intro hcon
        rcases mem_keys_hmInsert st rest k w (st k0) hcon with h1 | h1
        · exact hnd.1 h1
        · exact hk h1

theorem keyCount_hmInsert_self {σ : Type} [DecidableEq σ] (st : NodeId → σ) :
    ∀ (t : TransTable) (k : NodeId) (w : Nat), NodupKeys st t →
    keyCount st (hmInsert st t k w) (st k) = 1 := by
  intro t
  induction t with
  | nil => intro k w _; simp [keyCount, hmInsert]
  | cons e rest ih =>
      intro k w hnd
      obtain ⟨k0, w0⟩ := e
      rw [NodupKeys, List.map_cons, List.nodup_cons] at hnd
      rw [hmInsert]
      by_cases hk : st k0 = st k
      · rw [if_pos hk, keyCount, List.filter_cons]
        have h0 : keyCount st rest (st k) = 0 :=
          keyCount_eq_zero st rest (st k) (by rw [← hk]; exact hnd.1)
        rw [keyCount] at h0
        simp [hk, h0]
      · rw [if_neg hk, keyCount, List.filter_cons]
        simp only [decide_eq_true_eq, hk, if_false]
        exact ih k w hnd.2

theorem hmInsert_value {σ : Type} [DecidableEq σ] (st : NodeId → σ) :
    ∀ (t : TransTable) (k : NodeId) (w : Nat), NodupKeys st t →
    ∀ e ∈ hmInsert st t k w, st e.1 = st k → e.2 = w := by
  intro t
  induction t with
  | nil =>
      intro k w _ e he _
      rw [hmInsert] at he
      obtain rfl : e = (k, w) := by simpa using he
      rfl
  | cons e0 rest ih =>
      intro k w hnd e he hk2
      obtain ⟨k0, w0⟩ := e0
      rw [NodupKeys, List.map_cons, List.nodup_cons] at hnd
      rw [hmInsert] at he
      by_cases hk : st k0 = st k
      · rw [if_pos hk] at he
        rcases List.mem_cons.mp he with rfl | hmem
        · rfl
        · exact absurd (hk.trans hk2.symm ▸ List.mem_map.mpr ⟨e, hmem, rfl⟩) hnd.1
      · rw [if_neg hk] at he
        rcases List.mem_cons.mp he with rfl | hmem
        · exact absurd hk2 hk
        · exact ih k w hnd.2 e hmem hk2

/-! The claims. -/

/-- C1: refuted by the code, two-node chain 0 → 1 (weight 1), always-succeeding
callback, 2 steps, all rolls 0.  The only callback invocation observes the pair
(0, 1), and `walk` under the same rolls returns the visited states [0, 1], but
`mut_walk` returns the path [0, 0]: src/src/step.rs line 160 pushes
`current.state` where `walk` (line 115) pushes `next.state`, so the returned path
is not the sequence of visited states and the callback pair does not appear as
consecutive path entries. -/
theorem mut_walk_path_lags_behind_walk :
    (mutWalk stId cbOk rollsZero tmLine2 0 2).res = .ok [0, 0] ∧
    (mutWalk stId cbOk rollsZero tmLine2 0 2).calls = [((0, 1), none)] ∧
    walk stId tmLine2 rollsZero 0 2 = [0, 1] ∧
    (mutWalk stId cbOk rollsZero tmLine2 0 2).res ≠
      .ok (walk stId tmLine2 rollsZero 0 2) := by
  refine ⟨rfl, rfl, rfl, fun h => ?_⟩
  have h2 : (Except.ok [0, 0] : Except Unit (List Nat)) = .ok [0, 1] := h
  simp at h2

/-- C2: if the callback fails with `e` on some transition of `mut_walk`, the run
returns exactly `.error e` (no path value), the failing invocation is the last
callback invocation, and every invocation before it succeeded — so a failure on
the k-th transition is preceded by exactly k-1 successful invocations. -/
theorem mut_walk_error_aborts {σ ε : Type} (st : NodeId → σ)
    (cb : (NodeId → TransTable) → NodeId → NodeId → Except ε (NodeId → TransTable))
    (rolls : Nat → Nat → Nat) (tm : NodeId → TransTable) (start : NodeId)
    (steps : Nat) (e : ε)
    (h : (mutWalk st cb rolls tm start steps).res = .error e) :
    ∃ pre q, (mutWalk st cb rolls tm start steps).calls = pre ++ [(q, some e)] ∧
      ∀ x ∈ pre, x.2 = none := by
  have hr : (mutWalkFrom st cb rolls tm start (steps - 1) 0).res = .error e := by
    simpa [mutWalk, exceptMap_eq_error] using h
  obtain ⟨pre, q, hc, hp⟩ := mutWalkFrom_error st cb rolls (steps - 1) tm start 0 e hr
  refine ⟨pre, q, ?_, hp⟩
  simpa [mutWalk] using hc

/-- Witness for C2: on the line 0 → 1 → 2 → 3 with a callback failing at current
node 1, `mut_walk(0, 5, cb)` fails on the 2nd transition after 1 successful
invocation. -/
theorem mut_walk_error_aborts_witness :
    ∃ pre q, (mutWalk stId cbFailAt1 rollsZero tmLine4 0 5).calls =
      pre ++ [(q, some ())] ∧ ∀ x ∈ pre, x.2 = none :=
  mut_walk_error_aborts stId cbFailAt1 rollsZero tmLine4 0 5 () rfl

/-- C3: for every possible draw, `Step::next` returns `none` exactly when the
table is empty or its total weight is `0`; otherwise it returns `some x` exactly
for the first edge in iteration order whose cumulative weight sum exceeds the
roll (so the fall-through `none` after the scan is unreachable). -/
theorem next_weighted_selection (t : TransTable) (rng : Nat → Nat)
    (hv : ∀ n, 0 < n → rng n < n) :
    (stepNext t rng = none ↔ (t = [] ∨ totalWeight t = 0)) ∧
    (∀ x, stepNext t rng = some x ↔
      ∃ pre w rest, t = pre ++ (x, w) :: rest ∧
        totalWeight pre ≤ rng (totalWeight t) ∧
        rng (totalWeight t) < totalWeight pre + w ∧
        ∀ j, j < pre.length → cumW t (j + 1) ≤ rng (totalWeight t)) := by
  constructor
  · exact stepNext_eq_none t rng (hv _)
  · intro x
    constructor
    · intro h
      obtain ⟨pre, w, rest, heq, hA, hB⟩ := (stepNext_eq_some t rng x).mp h
      refine ⟨pre, w, rest, heq, hA, hB, ?_⟩
      intro j hj
      have ht : t.take (j + 1) = pre.take (j + 1) := by
        rw [heq, List.take_append_of_le_length (by omega)]
      calc cumW t (j + 1) = totalWeight (pre.take (j + 1)) := by rw [cumW, ht]
        _ ≤ totalWeight pre := totalWeight_take_le pre (j + 1)
        _ ≤ rng (totalWeight t) := hA
    · rintro ⟨pre, w, rest, heq, hA, hB, -⟩
      exact (stepNext_eq_some t rng x).mpr ⟨pre, w, rest, heq, hA, hB⟩

/-- Witness for C3: the empty table is a dead end, and on the table
[(5, 0), (7, 2)] with roll 0 the selected successor is node 7 at index 1. -/
theorem next_weighted_selection_witness :
    stepNext ([] : TransTable) (fun _ => 0) = none ∧
    stepNext [(5, 0), (7, 2)] (fun _ => 0) = some 7 :=
  ⟨(next_weighted_selection [] (fun _ => 0) (fun _ h => h)).1.mpr (Or.inl rfl),
   ((next_weighted_selection [(5, 0), (7, 2)] (fun _ => 0) (fun _ h => h)).2 7).mpr
     ⟨[(5, 0)], 2, [], rfl, by decide, by decide,
      by intro j hj; obtain rfl := Nat.lt_one_iff.mp hj; decide⟩⟩

/-- C4: for `max_steps ≥ 1` and valid rolls, `walk` returns the states of its
node trajectory, of length (transitions taken) + 1, and the length equals
`max_steps` unless the walk stopped earlier, in which case the node it stopped at
is a dead end. -/
theorem walk_length_law {σ : Type} (st : NodeId → σ) (tm : NodeId → TransTable)
    (rolls : Nat → Nat → Nat) (start : NodeId) (steps : Nat)
    (hv : ValidRolls rolls) (hsteps : 1 ≤ steps) :
    walk st tm rolls start steps = (walkTraj tm rolls start steps).map st ∧
    (walk st tm rolls start steps).length =
      (walkNodes tm rolls start (steps - 1) 0).length + 1 ∧
    ((walk st tm rolls start steps).length = steps ∨
      ((walk st tm rolls start steps).length < steps ∧
        IsDeadEnd (tm ((walkTraj tm rolls start steps).getLastD start)))) := by
  have hmap := walkFrom_eq_map st tm rolls (steps - 1) start 0
  have hlen : (walk st tm rolls start steps).length
      = (walkNodes tm rolls start (steps - 1) 0).length + 1 := by
    rw [walk, List.length_cons, hmap, List.length_map]
  refine ⟨?_, hlen, ?_⟩
  · rw [walk, walkTraj, List.map_cons, hmap]
  · rcases walkNodes_length tm rolls hv (steps - 1) start 0 with h | ⟨hlt, hde⟩
    · left; rw [hlen, h]; omega
    · right
      refine ⟨by rw [hlen]; omega, ?_⟩
      rw [walkTraj, List.getLastD_cons]
      exact hde

/-- Witness for C4: on the chain 0 → 1 with node 1 a dead end, `walk(0, 3)`
stops early with a path of length 2 ending at the dead end. -/
theorem walk_length_law_witness :
    walk stId tmLine2 rollsZero 0 3 = (walkTraj tmLine2 rollsZero 0 3).map stId ∧
    (walk stId tmLine2 rollsZero 0 3).length =
      (walkNodes tmLine2 rollsZero 0 2 0).length + 1 ∧
    ((walk stId tmLine2 rollsZero 0 3).length = 3 ∨
      ((walk stId tmLine2 rollsZero 0 3).length < 3 ∧
        IsDeadEnd (tmLine2 ((walkTraj tmLine2 rollsZero 0 3).getLastD 0)))) :=
  walk_length_law stId tmLine2 rollsZero 0 3 (fun _ _ h => h) (by omega)

/-- C5: a zero-step walk returns exactly the start state, and the node
trajectory is just the start node — no transition is taken. -/
theorem walk_zero_steps {σ : Type} (st : NodeId → σ) (tm : NodeId → TransTable)
    (rolls : Nat → Nat → Nat) (start : NodeId) :
    walk st tm rolls start 0 = [st start] ∧ walkTraj tm rolls start 0 = [start] :=
  ⟨rfl, rfl⟩

/-- C6: whenever `Step::next` selects a successor, the selecting edge has
strictly positive weight; with the `HashMap` invariant of pairwise-distinct
target keys, every stored weight for the selected target is positive. -/
theorem zero_weight_never_selected (t : TransTable) (rng : Nat → Nat) (x : NodeId)
    (h : stepNext t rng = some x) :
    (∃ w, (x, w) ∈ t ∧ 0 < w) ∧
    ((t.map Prod.fst).Nodup → ∀ w, (x, w) ∈ t → 0 < w) := by
  obtain ⟨pre, w, rest, heq, hA, hB⟩ := (stepNext_eq_some t rng x).mp h
  have hw : 0 < w := by omega
  constructor
  · exact ⟨w, by rw [heq]; exact List.mem_append_right _ (List.mem_cons_self _ _), hw⟩
  · intro hnd w2 hmem
    rw [heq] at hnd hmem
    rw [List.map_append, List.map_cons, List.nodup_append] at hnd
    obtain ⟨-, hnd2, hdisj⟩ := hnd
    rcases List.mem_append.mp hmem with hp | hcx
    · have hx : x ∈ pre.map Prod.fst := List.mem_map.mpr ⟨(x, w2), hp, rfl⟩
      exact (hdisj hx (List.mem_cons_self _ _)).elim
    · rcases List.mem_cons.mp hcx with h2 | h2
      · obtain ⟨-, h3⟩ := Prod.mk.inj h2
        omega
      · have hx : x ∈ rest.map Prod.fst := List.mem_map.mpr ⟨(x, w2), h2, rfl⟩
        exact ((List.nodup_cons.mp hnd2).1 hx).elim

/-- Witness for C6: on [(5, 0), (7, 2)] with roll 0 the zero-weight edge to node
5 is skipped and the selected node 7 has stored weight 2 > 0. -/
theorem zero_weight_never_selected_witness :
    (∃ w, ((7 : NodeId), w) ∈ [((5 : NodeId), (0 : Nat)), (7, 2)] ∧ 0 < w) ∧
    (([((5 : NodeId), (0 : Nat)), (7, 2)].map Prod.fst).Nodup →
      ∀ w, ((7 : NodeId), w) ∈ [((5 : NodeId), (0 : Nat)), (7, 2)] → 0 < w) :=
  zero_weight_never_selected [(5, 0), (7, 2)] (fun _ => 0) 7 rfl

/-- C7: inserting twice with targets of equal state (the key identity of the
table) leaves exactly one edge under that key, holding the second weight —
overwrite, not accumulation — and the key-uniqueness invariant is preserved. -/
theorem insert_transition_overwrite {σ : Type} [DecidableEq σ] (st : NodeId → σ)
    (t : TransTable) (k1 k2 : NodeId) (w1 w2 : Nat)
    (hnd : NodupKeys st t) (hk : st k1 = st k2) :
    keyCount st (hmInsert st (hmInsert st t k1 w1) k2 w2) (st k2) = 1 ∧
    keyCount st (hmInsert st (hmInsert st t k1 w1) k2 w2) (st k1) = 1 ∧
    (∀ e ∈ hmInsert st (hmInsert st t k1 w1) k2 w2, st e.1 = st k2 → e.2 = w2) ∧
    NodupKeys st (hmInsert st (hmInsert st t k1 w1) k2 w2) := by
  have h1 := nodupKeys_hmInsert st t k1 w1 hnd
  refine ⟨keyCount_hmInsert_self st _ k2 w2 h1, ?_,
    hmInsert_value st _ k2 w2 h1, nodupKeys_hmInsert st _ k2 w2 h1⟩
  rw [hk]
  exact keyCount_hmInsert_self st _ k2 w2 h1

/-- Witness for C7: inserting weight 1 then weight 9 for target 5 into the table
[(3, 7)] leaves exactly one edge keyed 5. -/
theorem insert_transition_overwrite_witness :
    keyCount stId (hmInsert stId (hmInsert stId [(3, 7)] 5 1) 5 9) (stId 5) = 1 :=
  (insert_transition_overwrite stId [(3, 7)] 5 5 1 9 (by simp [NodupKeys]) rfl).1

/-- C8: two nodes compare equal exactly when their states are equal — the
transition tables are ignored — and equal nodes hash identically, for every
hasher. -/
theorem step_eq_hash_by_state {σ H : Type} [DecidableEq σ] (a b : StepV σ)
    (hs : σ → H → H) (h0 : H) :
    (stepBEq a b = true ↔ a.state = b.state) ∧
    (stepBEq a b = true → stepHash hs a h0 = stepHash hs b h0) := by
  constructor
  · simp [stepBEq]
  · intro h
    have he : a.state = b.state := by simpa [stepBEq] using h
    rw [stepHash, stepHash, he]

/-- Witness for C8: nodes with state 1 but different transition tables are equal
and hash identically. -/
theorem step_eq_hash_by_state_witness :
    stepBEq (⟨1, [(2, 3)]⟩ : StepV Nat) ⟨1, []⟩ = true ∧
    stepHash (fun s h => s + h) (⟨1, [(2, 3)]⟩ : StepV Nat) 0 =
      stepHash (fun s h => s + h) (⟨1, []⟩ : StepV Nat) 0 := by
  have hthm := step_eq_hash_by_state (⟨1, [(2, 3)]⟩ : StepV Nat) ⟨1, []⟩
    (fun s h => s + h) 0
  exact ⟨hthm.1.mpr rfl, hthm.2 (hthm.1.mpr rfl)⟩

/-- C9: the heap-threaded translation of `walk` returns every node's transition
table exactly as it was — `walk` only ever takes the read lock — and computes the
same path as the plain `walk`; node states are immutable by the type of the
embedding. -/
theorem walk_no_mutation {σ : Type} (st : NodeId → σ) (tm : NodeId → TransTable)
    (rolls : Nat → Nat → Nat) (start : NodeId) (steps : Nat) :
    walkH st tm rolls start steps = (walk st tm rolls start steps, tm) := by
  simp [walkH, walk, walkFromH_pure st rolls]

/-- C10: `mut_walk` with `steps ≤ 1` returns the one-entry path of the start
state and never invokes the callback; every successful `mut_walk` returns a
non-empty path of length at most `max steps 1`, equal to the number of callback
invocations plus one. -/
theorem mut_walk_length_law {σ ε : Type} (st : NodeId → σ)
    (cb : (NodeId → TransTable) → NodeId → NodeId → Except ε (NodeId → TransTable))
    (rolls : Nat → Nat → Nat) (tm : NodeId → TransTable) (start : NodeId)
    (steps : Nat) :
    (steps ≤ 1 →
      (mutWalk st cb rolls tm start steps).res = .ok [st start] ∧
      (mutWalk st cb rolls tm start steps).calls = []) ∧
    (∀ l, (mutWalk st cb rolls tm start steps).res = .ok l →
      l ≠ [] ∧ l.length ≤ max steps 1 ∧
      l.length = (mutWalk st cb rolls tm start steps).calls.length + 1) := by
  constructor
  · intro hle
    have h0 : steps - 1 = 0 := by omega
    rw [mutWalk, h0]
    exact ⟨rfl, rfl⟩
  · intro l hl
    have hr : Except.map (fun l2 => st start :: l2)
        (mutWalkFrom st cb rolls tm start (steps - 1) 0).res = .ok l := by
      simpa [mutWalk] using hl
    obtain ⟨l2, hl2, heq⟩ := (exceptMap_eq_ok _ _ _).mp hr
    obtain ⟨hlen, hcalls⟩ := mutWalkFrom_ok_length st cb rolls (steps - 1) tm start 0 l2 hl2
    subst heq
    have hc : (mutWalk st cb rolls tm start steps).calls =
        (mutWalkFrom st cb rolls tm start (steps - 1) 0).calls := by
      rw [mutWalk]
    refine ⟨by simp, ?_, ?_⟩
    · simp only [List.length_cons]
      omega
    · rw [hc, List.length_cons, hcalls]

/-- Witness for C10: a one-step `mut_walk` returns just the start state with no
callback invocation, and `mut_walk(0, 4)` on the line 0 → 1 → 2 → 3 succeeds with
a path of length 4 after 3 invocations. -/
theorem mut_walk_length_law_witness :
    ((mutWalk stId cbOk rollsZero tmLine4 0 1).res = .ok [stId 0] ∧
      (mutWalk stId cbOk rollsZero tmLine4 0 1).calls = []) ∧
    (([0, 0, 1, 2] : List Nat) ≠ [] ∧ ([0, 0, 1, 2] : List Nat).length ≤ max 4 1 ∧
      ([0, 0, 1, 2] : List Nat).length =
        (mutWalk stId cbOk rollsZero tmLine4 0 4).calls.length + 1) :=
  ⟨(mut_walk_length_law stId cbOk rollsZero tmLine4 0 1).1 (by omega),
   (mut_walk_length_law stId cbOk rollsZero tmLine4 0 4).2 [0, 0, 1, 2] rfl⟩

end LinkedMarkov
